import Mathlib

/-!
Shallow embedding of the finance-analyzer core (`src/NEW.py`): the
Categorizer (`categorize_transaction_with_multiple`,
`categorize_all_transactions` with the module-level `categories` /
`categories_priority` tables) and the Aggregator
(`calculate_basic_stats`, `calculate_by_category`, `analyze_by_time`).

Modelling conventions:
* Python `float` amounts are modelled as `ℚ` (all arithmetic in the core is
  exact on the inputs of interest; sign tests and the percent formula carry
  over unchanged).
* A Python transaction dict is a structure; the `description` and `category`
  keys, which the code reads with `dict.get` and a default, are `Option
  String` (`none` = key absent); `date` and `amount` are read with `t[...]`
  (mandatory), hence plain fields.
* Python dicts used as accumulators (`category_totals`, `monthly_stats`,
  `collections.Counter`) are association lists in insertion order, which is
  exactly the iteration order Python guarantees.
* `datetime.strptime(s, '%Y-%m-%d')` is modelled by `parse_date` following
  CPython's `_strptime` regexes: exactly four year digits, one or two month
  digits with value 1..12, one or two day digits with value 1..31, the day
  valid for the (proleptic Gregorian) month, nothing left over; a failure is
  the `ValueError` the Python code lets escape, modelled with `Except`.
-/

/-- A normalized transaction record as produced by the file readers. -/
structure Transaction where
  date : String
  amount : ℚ
  description : Option String
  category : Option String
deriving Repr, DecidableEq

/-- `Char`-level model of Python `str.lower` restricted to the alphabets the
program uses: ASCII `A`-`Z` and Cyrillic `А`-`Я`, `Ё`. -/
def lowerChar (c : Char) : Char :=
  if 65 ≤ c.toNat ∧ c.toNat ≤ 90 then Char.ofNat (c.toNat + 32)
  else if 0x410 ≤ c.toNat ∧ c.toNat ≤ 0x42F then Char.ofNat (c.toNat + 32)
  else if c.toNat = 0x401 then Char.ofNat 0x451
  else c

/-- Model of Python `str.lower`. -/
def pyLower (s : String) : String := String.mk (s.data.map lowerChar)

/-- `startsWithChars needle hay`: `needle` is a leading block of `hay`. -/
def startsWithChars : List Char → List Char → Bool
  | [], _ => true
  | _ :: _, [] => false
  | a :: as, b :: bs => a == b && startsWithChars as bs

/-- `substringAt needle hay`: `needle` occurs contiguously in `hay`. -/
def substringAt (needle : List Char) : List Char → Bool
  | [] => needle.isEmpty
  | c :: rest => startsWithChars needle (c :: rest) || substringAt needle rest

/-- Model of Python `keyword in text` on strings (contiguous substring test;
the empty string is a substring of everything). -/
def substringOf (needle hay : String) : Bool := substringAt needle.data hay.data

/-- The `any(keyword in description_low for keyword in keywords)` test of
`categorize_transaction_with_multiple`, for one category of the rule table
(`categories.get(category, [])` is `lookup` with default `[]`). -/
def categoryMatches (categories : List (String × List String))
    (description_low : String) (category : String) : Bool :=
  ((categories.lookup category).getD []).any fun keyword =>
    substringOf keyword description_low

/-- `categorize_transaction_with_multiple` (src/NEW.py:113-126): collect the
priority-ordered categories with a keyword match, return the first or the
fallback `"другое"` (the "other" sentinel). -/
def categorize_transaction_with_multiple (description : String)
    (categories : List (String × List String))
    (categories_priority : List String) : String :=
  let description_low := pyLower description
  let matched_categories :=
    categories_priority.filter (categoryMatches categories description_low)
  match matched_categories with
  | [] => "другое"
  | c :: _ => c

/-- The module-level `categories` rule table (src/NEW.py:246-262), in source
order. -/
def categories : List (String × List String) :=
  [("продукты", ["продукты", "магазин", "продуктовый", "пятёрочка", "ника", "касира"]),
   ("обед и рестораны", ["ресторан", "кафе", "обед", "бесплатно", "ужин", "завтрак"]),
   ("транспорт", ["такси", "автобус", "метро", "транспорт", "билет"]),
   ("услуги", ["мобильный", "интернет", "услуга", "сервис", "ремонт"]),
   ("развлечения", ["кино", "театр", "концерт", "игры", "кинотеатр"]),
   ("одежда", ["одежда", "обувь", "магазин одежды", "гардероб"]),
   ("здравоохранение", ["аптека", "лекарство", "медицин", "врач"]),
   ("спорт", ["спорт", "тренажёрка", "фитнес", "спортзал"]),
   ("образование", ["курс", "учеба", "школа", "университет"]),
   ("коммунальные услуги", ["Коммуналка", "вода", "электричество", "газ"]),
   ("депозит/инвестиции", ["клиентов", "депозит", "инвестиции"]),
   ("зарплата и доходы", ["зарплата", "доход", "перевод"]),
   ("погашение кредита", ["кредит", "ипотека", "погашение"]),
   ("подарки", ["подарок", "поздравление"]),
   ("налоги", ["налог", "фискальный"])]

/-- The module-level `categories_priority` list (src/NEW.py:264-280). -/
def categories_priority : List String :=
  ["зарплата и доходы", "погашение кредита", "продукты", "обед и рестораны",
   "транспорт", "услуги", "развлечения", "одежда", "здравоохранение",
   "спорт", "образование", "коммунальные услуги", "депозит/инвестиции",
   "подарки", "налоги"]

/-- `categorize_all_transactions` (src/NEW.py:129-135): write the category of
every transaction, from its description (`t.get("description", "")`), using
the module-level tables. -/
def categorize_all_transactions (transactions : List Transaction) :
    List Transaction :=
  transactions.map fun t =>
    { t with category := some (categorize_transaction_with_multiple
        (t.description.getD "") categories categories_priority) }

/-- Result record of `calculate_basic_stats`. -/
structure BasicStats where
  total_income : ℚ
  total_expense : ℚ
  balance : ℚ
  transaction_count : Nat
deriving Repr, DecidableEq

/-- `calculate_basic_stats` (src/NEW.py:139-151). -/
def calculate_basic_stats (transactions : List Transaction) : BasicStats :=
  let total_income :=
    ((transactions.filter fun t => t.amount > 0).map Transaction.amount).sum
  let total_expense :=
    ((transactions.filter fun t => t.amount < 0).map Transaction.amount).sum
  { total_income := total_income
    total_expense := total_expense
    balance := total_income + total_expense
    transaction_count := transactions.length }

/-- One `category_totals` bucket before the percent pass. -/
structure CatData where
  sum : ℚ
  count : Nat
deriving Repr, DecidableEq

/-- One `category_totals` bucket after the percent pass. -/
structure CatStats where
  sum : ℚ
  count : Nat
  percent : ℚ
deriving Repr, DecidableEq

/-- One grouping step of `calculate_by_category`: create the bucket on first
sight (at the end, Python dict insertion order), then add the amount and bump
the count. -/
def upsertCat (m : List (String × CatData)) (category : String) (amount : ℚ) :
    List (String × CatData) :=
  match m with
  | [] => [(category, ⟨amount, 1⟩)]
  | (k, d) :: rest =>
    if k = category then (k, ⟨d.sum + amount, d.count + 1⟩) :: rest
    else (k, d) :: upsertCat rest category amount

/-- `calculate_by_category` (src/NEW.py:154-170): group on
`t.get('category', 'Без категории')`, then attach
`percent = (-sum / -total_expenses * 100) if total_expenses != 0 else 0`. -/
def calculate_by_category (transactions : List Transaction) :
    List (String × CatStats) :=
  let total_expenses :=
    ((transactions.filter fun t => t.amount < 0).map Transaction.amount).sum
  let category_totals := transactions.foldl
    (fun m t => upsertCat m (t.category.getD "Без категории") t.amount) []
  category_totals.map fun p =>
    (p.1, ⟨p.2.sum, p.2.count,
      if total_expenses ≠ 0 then -p.2.sum / -total_expenses * 100 else 0⟩)

/-- Digit run to its numeric value. -/
def digitsVal (cs : List Char) : Nat :=
  cs.foldl (fun a c => a * 10 + (c.toNat - 48)) 0

/-- Day count of a month in the proleptic Gregorian calendar, as
`datetime.date` validates it. -/
def daysInMonth (y m : Nat) : Nat :=
  if m = 2 then (if (y % 4 = 0 ∧ y % 100 ≠ 0) ∨ y % 400 = 0 then 29 else 28)
  else if m = 4 ∨ m = 6 ∨ m = 9 ∨ m = 11 then 30
  else 31

/-- Split a character list at `-` separators. -/
def splitDashes (cs : List Char) : List (List Char) :=
  match cs with
  | [] => [[]]
  | c :: rest =>
    let groups := splitDashes rest
    if c = '-' then [] :: groups
    else
      match groups with
      | [] => [[c]]
      | g :: gs => (c :: g) :: gs

/-- Model of `datetime.datetime.strptime(s, '%Y-%m-%d')` (src/NEW.py:178),
following CPython `_strptime`: `%Y` is exactly four digits, `%m` matches
`1[0-2]|0[1-9]|[1-9]`, `%d` matches `3[01]|[12]\d|0[1-9]|[1-9]`, the whole
string must be consumed, and `datetime` then requires `1 ≤ year` and a day
valid for the month.  Returns `some (year, month)` (the parts `strftime`
later uses) or `none` for the `ValueError` case. -/
def parse_date (s : String) : Option (Nat × Nat) :=
  match splitDashes s.data with
  | [ys, ms, ds] =>
    if (ys.all Char.isDigit && ms.all Char.isDigit && ds.all Char.isDigit)
        && (ys.length = 4 && (ms.length = 1 || ms.length = 2)
            && (ds.length = 1 || ds.length = 2)) then
      let y := digitsVal ys
      let m := digitsVal ms
      let d := digitsVal ds
      if 1 ≤ y ∧ 1 ≤ m ∧ m ≤ 12 ∧ 1 ≤ d ∧ d ≤ daysInMonth y m then
        some (y, m)
      else none
    else none
  | _ => none

/-- Left-pad a numeral with zeros to `w` digits. -/
def padZeros (w : Nat) (n : Nat) : String :=
  let s := toString n
  String.mk (List.replicate (w - s.length) '0') ++ s

/-- `date_obj.strftime('%Y-%m')` (src/NEW.py:179): the month key. -/
def monthKeyString (y m : Nat) : String := padZeros 4 y ++ "-" ++ padZeros 2 m

/-- The month key of a transaction, when its date parses. -/
def monthKeyOf (t : Transaction) : Option String :=
  (parse_date t.date).map fun p => monthKeyString p.1 p.2

/-- One `monthly_stats` bucket before the top-categories pass. -/
structure MonthData where
  income : ℚ
  expenses : ℚ
  categories : List String
deriving Repr, DecidableEq

/-- One `monthly_stats` bucket after the top-categories pass. -/
structure MonthStats where
  income : ℚ
  expenses : ℚ
  categories : List String
  top_categories : List (String × Nat)
deriving Repr, DecidableEq

/-- The per-transaction update of `analyze_by_time`'s accumulation loop body
(src/NEW.py:186-190): positive amounts add to `income`, negative amounts add
to `expenses` and append `t.get('category', 'Без категории')`; zero amounts
change nothing. -/
def applyTx (d : MonthData) (t : Transaction) : MonthData :=
  if t.amount > 0 then { d with income := d.income + t.amount }
  else if t.amount < 0 then
    { d with expenses := d.expenses + t.amount
             categories := d.categories ++ [t.category.getD "Без категории"] }
  else d

/-- Insert-or-update of the `monthly_stats` dict for one transaction: a new
month key starts from the zero bucket and goes to the end (dict insertion
order). -/
def monthUpsert (stats : List (String × MonthData)) (key : String)
    (t : Transaction) : List (String × MonthData) :=
  match stats with
  | [] => [(key, applyTx ⟨0, 0, []⟩ t)]
  | (k, d) :: rest =>
    if k = key then (k, applyTx d t) :: rest
    else (k, d) :: monthUpsert rest key t

/-- The accumulation loop of `analyze_by_time` (src/NEW.py:177-190); the
first unparsable date aborts with that date string (the escaping
`ValueError`). -/
def analyzeLoop : List Transaction → List (String × MonthData) →
    Except String (List (String × MonthData))
  | [], stats => .ok stats
  | t :: ts, stats =>
    match parse_date t.date with
    | none => .error t.date
    | some p => analyzeLoop ts (monthUpsert stats (monthKeyString p.1 p.2) t)

/-- Occurrence count of `x` in `l` (a `collections.Counter` entry). -/
def countOcc (l : List String) (x : String) : Nat :=
  (l.filter fun y => y = x).length

/-- The distinct elements of a list in first-occurrence order (the key order
of `collections.Counter(l)`), with an accumulator of already-seen keys. -/
def firstOccAux (seen : List String) : List String → List String
  | [] => []
  | x :: xs =>
    if seen.contains x then firstOccAux seen xs
    else x :: firstOccAux (x :: seen) xs

/-- Key order of `collections.Counter(l)`. -/
def firstOccKeys (l : List String) : List String := firstOccAux [] l

/-- Stable descending insertion on the count component. -/
def insertDesc (x : String × Nat) : List (String × Nat) → List (String × Nat)
  | [] => [x]
  | y :: ys => if x.2 ≤ y.2 then y :: insertDesc x ys else x :: y :: ys

/-- Stable sort, descending on the count component (the order
`heapq.nlargest` ranks `Counter.items()` in: by count descending, ties in
first-encountered order). -/
def sortDesc (l : List (String × Nat)) : List (String × Nat) :=
  l.foldl (fun acc x => insertDesc x acc) []

/-- `collections.Counter(cats).most_common(3)` (src/NEW.py:194-195). -/
def most_common3 (cats : List String) : List (String × Nat) :=
  sortDesc ((firstOccKeys cats).map fun c => (c, countOcc cats c)) |>.take 3

/-- `analyze_by_time` (src/NEW.py:174-198): accumulate the monthly buckets,
then attach `top_categories` to each. -/
def analyze_by_time (transactions : List Transaction) :
    Except String (List (String × MonthStats)) :=
  (analyzeLoop transactions []).map fun stats =>
    stats.map fun p =>
      (p.1, ⟨p.2.income, p.2.expenses, p.2.categories,
             most_common3 p.2.categories⟩)

/-! ## Helper lemmas -/

theorem lookup_mem {β : Type} {l : List (String × β)} {a : String} {b : β}
    (h : List.lookup a l = some b) : (a, b) ∈ l := by
  induction l with
  | nil => simp [List.lookup] at h
  | cons p rest ih =>
    obtain ⟨k, v⟩ := p
    by_cases hk : (a == k) = true
    · have ha : a = k := by simpa using hk
      simp only [List.lookup, hk, Option.some.injEq] at h
      subst ha
      subst h
      exact List.mem_cons_self _ _
    · have hk' : (a == k) = false := by simpa using hk
      simp only [List.lookup, hk'] at h
      exact List.mem_cons_of_mem _ (ih h)

theorem categorize_cons (d : String) (cats : List (String × List String))
    (c : String) (cs : List String) :
    categorize_transaction_with_multiple d cats (c :: cs) =
      if categoryMatches cats (pyLower d) c = true then c
      else categorize_transaction_with_multiple d cats cs := by
  by_cases hp : categoryMatches cats (pyLower d) c = true
  · simp [categorize_transaction_with_multiple, List.filter_cons, hp]
  · simp [categorize_transaction_with_multiple, List.filter_cons, hp]

theorem categorize_mem_or_fallback (d : String)
    (cats : List (String × List String)) (prio : List String) :
    categorize_transaction_with_multiple d cats prio ∈ prio
      ∨ categorize_transaction_with_multiple d cats prio = "другое" := by
  have hdef : categorize_transaction_with_multiple d cats prio =
      match prio.filter (categoryMatches cats (pyLower d)) with
      | [] => "другое"
      | c :: _ => c := rfl
  cases hf : prio.filter (categoryMatches cats (pyLower d)) with
  | nil => right; rw [hdef, hf]
  | cons c rest =>
    left
    rw [hdef, hf]
    have hc : c ∈ prio.filter (categoryMatches cats (pyLower d)) := by
      rw [hf]; exact List.mem_cons_self _ _
    exact List.mem_of_mem_filter hc

theorem prio_names_nonempty : ∀ c ∈ categories_priority, c ≠ "" := by decide

/-- C1: if no keyword of any category of the rule table occurs in the
lower-cased description, the categorizer returns the fallback sentinel
(`"другое"`, the spec's "other"); and after `categorize_all_transactions`
every transaction carries a category that is a configured priority name or
the fallback, and is never empty. -/
theorem categorize_fallback_complete
    (description : String) (cats : List (String × List String))
    (prio : List String) (ts : List Transaction)
    (h : ∀ p ∈ cats, ∀ kw ∈ p.2, substringOf kw (pyLower description) = false) :
    categorize_transaction_with_multiple description cats prio = "другое"
    ∧ ∀ t ∈ categorize_all_transactions ts, ∃ c, t.category = some c
        ∧ (c ∈ categories_priority ∨ c = "другое") ∧ c ≠ "" := by
  constructor
  · have hall : ∀ c ∈ prio, ¬ (categoryMatches cats (pyLower description) c = true) := by
      intro c _ hc
      unfold categoryMatches at hc
      cases hlk : List.lookup c cats with
      | none => rw [hlk] at hc; simp at hc
      | some kws =>
        rw [hlk] at hc
        simp only [Option.getD_some, List.any_eq_true] at hc
        obtain ⟨kw, hkw, hsub⟩ := hc
        have := h (c, kws) (lookup_mem hlk) kw hkw
        rw [this] at hsub
        exact Bool.false_ne_true hsub
    have hf : prio.filter (categoryMatches cats (pyLower description)) = [] :=
      List.filter_eq_nil_iff.mpr hall
    have hdef : categorize_transaction_with_multiple description cats prio =
        match prio.filter (categoryMatches cats (pyLower description)) with
        | [] => "другое"
        | c :: _ => c := rfl
    rw [hdef, hf]
  · intro t ht
    unfold categorize_all_transactions at ht
    obtain ⟨t0, _, rfl⟩ := List.mem_map.mp ht
    refine ⟨_, rfl, categorize_mem_or_fallback _ _ _, ?_⟩
    rcases categorize_mem_or_fallback (t0.description.getD "") categories
        categories_priority with hm | hm
    · exact prio_names_nonempty _ hm
    · rw [hm]; decide

/-- Witness for C1 at the description `"zzz"`, which no keyword matches. -/
theorem categorize_fallback_complete_witness :
    categorize_transaction_with_multiple "zzz" categories categories_priority
        = "другое"
    ∧ ∀ t ∈ categorize_all_transactions
          [⟨"2024-01-05", 0, some "zzz", none⟩], ∃ c, t.category = some c
        ∧ (c ∈ categories_priority ∨ c = "другое") ∧ c ≠ "" :=
  categorize_fallback_complete "zzz" categories categories_priority
    [⟨"2024-01-05", 0, some "zzz", none⟩] (by decide)

/-- C2: when some category of the priority list has a keyword occurring in
the lower-cased description, the categorizer returns the first such category
in priority order: the priority list splits as `l1 ++ result :: l2` with
every category of `l1` match-free, so a description matching two categories
gets the earlier one, whatever the order of the keyword sets. -/
theorem categorize_first_priority_match
    (description : String) (cats : List (String × List String))
    (prio : List String)
    (h : ∃ c ∈ prio, categoryMatches cats (pyLower description) c = true) :
    ∃ l1 l2, prio = l1
        ++ categorize_transaction_with_multiple description cats prio :: l2
      ∧ categoryMatches cats (pyLower description)
          (categorize_transaction_with_multiple description cats prio) = true
      ∧ ∀ c ∈ l1, categoryMatches cats (pyLower description) c = false := by
  induction prio with
  | nil => simp at h
  | cons c cs ih =>
    by_cases hp : categoryMatches cats (pyLower description) c = true
    · refine ⟨[], cs, ?_, ?_, by simp⟩
      · rw [categorize_cons, if_pos hp]
        rfl
      · rw [categorize_cons, if_pos hp]; exact hp
    · have h' : ∃ c' ∈ cs, categoryMatches cats (pyLower description) c' = true := by
        obtain ⟨c', hc', hm⟩ := h
        rcases List.mem_cons.mp hc' with rfl | hmem
        · exact absurd hm hp
        · exact ⟨c', hmem, hm⟩
      obtain ⟨l1, l2, hsplit, hmatch, hnone⟩ := ih h'
      refine ⟨c :: l1, l2, ?_, ?_, ?_⟩
      · rw [categorize_cons, if_neg hp]
        simpa using hsplit
      · rw [categorize_cons, if_neg hp]
        exact hmatch
      · intro c' hc'
        rcases List.mem_cons.mp hc' with rfl | hmem
        · exact Bool.eq_false_iff.mpr hp
        · exact hnone c' hmem

/-- Witness for C2 at the description `"кафе обед"`, which matches a keyword
of `"обед и рестораны"`. -/
theorem categorize_first_priority_match_witness :
    ∃ l1 l2, categories_priority = l1
        ++ categorize_transaction_with_multiple "кафе обед" categories
              categories_priority :: l2
      ∧ categoryMatches categories (pyLower "кафе обед")
          (categorize_transaction_with_multiple "кафе обед" categories
              categories_priority) = true
      ∧ ∀ c ∈ l1, categoryMatches categories (pyLower "кафе обед") c = false :=
  categorize_first_priority_match "кафе обед" categories categories_priority
    (by decide)

theorem filter_nonneg_amounts_nil (ts : List Transaction)
    (h : ∀ t ∈ ts, 0 ≤ t.amount) :
    (ts.filter fun t => t.amount < 0) = [] := by
  refine List.filter_eq_nil_iff.mpr ?_
  intro t ht
  simpa using not_lt.mpr (h t ht)

/-- C3: every bucket of `calculate_by_category` carries
`percent = -sum / -total_expenses * 100` with `total_expenses` the sum of the
negative amounts of the whole input, `percent = 0` for every bucket when that
total is zero, and in particular every percent is `0` on an input with no
negative amount, with no division error. -/
theorem category_percent_formula (ts : List Transaction) :
    (∀ p ∈ calculate_by_category ts,
      p.2.percent =
        if ((ts.filter fun t => t.amount < 0).map Transaction.amount).sum = 0
        then 0
        else -p.2.sum
          / -((ts.filter fun t => t.amount < 0).map Transaction.amount).sum
          * 100)
    ∧ ((∀ t ∈ ts, 0 ≤ t.amount) →
        ∀ p ∈ calculate_by_category ts, p.2.percent = 0) := by
  have main : ∀ p ∈ calculate_by_category ts,
      p.2.percent =
        if ((ts.filter fun t => t.amount < 0).map Transaction.amount).sum = 0
        then 0
        else -p.2.sum
          / -((ts.filter fun t => t.amount < 0).map Transaction.amount).sum
          * 100 := by
    intro p hp
    simp only [calculate_by_category, List.mem_map] at hp
    obtain ⟨q, _, rfl⟩ := hp
    by_cases hTE :
        ((ts.filter fun t => t.amount < 0).map Transaction.amount).sum = 0
    · simp [hTE]
    · simp [hTE]
  refine ⟨main, ?_⟩
  intro hpos p hp
  rw [main p hp, filter_nonneg_amounts_nil ts hpos]
  simp

/-- Witness for C3 on a one-transaction expense-free input. -/
theorem category_percent_formula_witness :
    (∀ p ∈ calculate_by_category [⟨"2024-01-05", 3, some "x", some "c"⟩],
      p.2.percent =
        if (((([⟨"2024-01-05", 3, some "x", some "c"⟩] : List Transaction).filter
              fun t => t.amount < 0).map Transaction.amount)).sum = 0
        then 0
        else -p.2.sum
          / -(((([⟨"2024-01-05", 3, some "x", some "c"⟩] : List Transaction).filter
              fun t => t.amount < 0).map Transaction.amount)).sum * 100)
    ∧ ((∀ t ∈ ([⟨"2024-01-05", 3, some "x", some "c"⟩] : List Transaction),
          0 ≤ t.amount) →
        ∀ p ∈ calculate_by_category [⟨"2024-01-05", 3, some "x", some "c"⟩],
          p.2.percent = 0) :=
  category_percent_formula [⟨"2024-01-05", 3, some "x", some "c"⟩]

theorem sum_amount_pos_eq_nonneg (ts : List Transaction) :
    ((ts.filter fun t => t.amount > 0).map Transaction.amount).sum
      = ((ts.filter fun t => 0 ≤ t.amount).map Transaction.amount).sum := by
  induction ts with
  | nil => rfl
  | cons t ts ih =>
    simp only [List.filter_cons]
    rcases lt_trichotomy t.amount 0 with h | h | h
    · have h1 : ¬ (t.amount > 0) := by linarith
      have h2 : ¬ (0 ≤ t.amount) := by linarith
      simp [h1, h2, ih]
    · have h1 : ¬ (t.amount > 0) := by simp [h]
      have h2 : 0 ≤ t.amount := by simp [h]
      simp [h1, h2, ih, h]
    · simp [h, le_of_lt h, ih]

theorem sum_amount_neg_nonpos (ts : List Transaction) :
    ((ts.filter fun t => t.amount < 0).map Transaction.amount).sum ≤ 0 := by
  induction ts with
  | nil => simp
  | cons t ts ih =>
    simp only [List.filter_cons]
    by_cases h : t.amount < 0
    · rw [if_pos (by simpa using h)]
      simp only [List.map_cons, List.sum_cons]
      linarith
    · simp [h, ih]

/-- C4: `calculate_basic_stats` returns `total_income` equal to the sum of
the amounts that are `≥ 0` (the code filters on `> 0`, and the zero amounts
it leaves out contribute nothing), `total_expense` the (non-positive) sum of
the negative amounts, `balance` exactly `total_income + total_expense`,
`transaction_count` the input length, and all zeros on the empty list. -/
theorem basic_stats_additivity (ts : List Transaction) :
    (calculate_basic_stats ts).total_income
        = ((ts.filter fun t => 0 ≤ t.amount).map Transaction.amount).sum
    ∧ (calculate_basic_stats ts).total_expense
        = ((ts.filter fun t => t.amount < 0).map Transaction.amount).sum
    ∧ (calculate_basic_stats ts).total_expense ≤ 0
    ∧ (calculate_basic_stats ts).total_income
        + (calculate_basic_stats ts).total_expense
        = (calculate_basic_stats ts).balance
    ∧ (calculate_basic_stats ts).transaction_count = ts.length
    ∧ calculate_basic_stats [] = ⟨0, 0, 0, 0⟩ :=
  ⟨sum_amount_pos_eq_nonneg ts, rfl, sum_amount_neg_nonpos ts, rfl, rfl,
    by norm_num [calculate_basic_stats]⟩

theorem upsertCat_count_sum (m : List (String × CatData)) (cat : String)
    (a : ℚ) :
    ((upsertCat m cat a).map fun p => p.2.count).sum
      = ((m.map fun p => p.2.count)).sum + 1 := by
  induction m with
  | nil => simp [upsertCat]
  | cons p rest ih =>
    obtain ⟨k, d⟩ := p
    by_cases hk : k = cat
    · simp only [upsertCat, if_pos hk, List.map_cons, List.sum_cons]
      omega
    · simp only [upsertCat, if_neg hk, List.map_cons, List.sum_cons, ih]
      omega

theorem upsertCat_keys (m : List (String × CatData)) (cat : String) (a : ℚ)
    (k : String) :
    k ∈ (upsertCat m cat a).map Prod.fst ↔ k ∈ m.map Prod.fst ∨ k = cat := by
  induction m with
  | nil => simp [upsertCat]
  | cons p rest ih =>
    obtain ⟨k0, d⟩ := p
    by_cases hk : k0 = cat
    · subst hk
      simp [upsertCat]
      tauto
    · simp only [upsertCat, if_neg hk, List.map_cons, List.mem_cons, ih]
      tauto

theorem foldl_upsert_count (ts : List Transaction) :
    ∀ m : List (String × CatData),
      ((ts.foldl (fun m t =>
          upsertCat m (t.category.getD "Без категории") t.amount) m).map
        fun p => p.2.count).sum
      = ((m.map fun p => p.2.count)).sum + ts.length := by
  induction ts with
  | nil => intro m; simp
  | cons t ts ih =>
    intro m
    simp only [List.foldl_cons]
    rw [ih, upsertCat_count_sum]
    simp only [List.length_cons]
    omega

theorem foldl_upsert_keys_mono (ts : List Transaction) :
    ∀ (m : List (String × CatData)) (k : String), k ∈ m.map Prod.fst →
      k ∈ (ts.foldl (fun m t =>
          upsertCat m (t.category.getD "Без категории") t.amount) m).map
        Prod.fst := by
  induction ts with
  | nil => intro m k h; simpa using h
  | cons t ts ih =>
    intro m k h
    simp only [List.foldl_cons]
    exact ih _ k ((upsertCat_keys _ _ _ _).mpr (Or.inl h))

theorem foldl_upsert_keys_mem (ts : List Transaction) :
    ∀ (m : List (String × CatData)), ∀ t ∈ ts,
      (t.category.getD "Без категории") ∈ (ts.foldl (fun m t =>
          upsertCat m (t.category.getD "Без категории") t.amount) m).map
        Prod.fst := by
  induction ts with
  | nil => simp
  | cons t0 ts ih =>
    intro m t ht
    simp only [List.foldl_cons]
    rcases List.mem_cons.mp ht with rfl | hmem
    · exact foldl_upsert_keys_mono ts _ _
        ((upsertCat_keys _ _ _ _).mpr (Or.inr rfl))
    · exact ih _ t hmem

/-- C5 counterexample: a transaction whose `category` field is present but
empty is grouped under the key `""`, while only a transaction whose
`category` key is missing reaches the `"Без категории"` (uncategorized)
bucket — two distinct buckets, so missing and empty are NOT merged into a
single uncategorized bucket. -/
theorem category_empty_bucket_counterexample :
    (calculate_by_category
        [⟨"2024-01-01", -5, some "x", some ""⟩,
         ⟨"2024-01-01", -5, some "x", none⟩]).map Prod.fst
      = ["", "Без категории"]
    ∧ ("" : String) ≠ "Без категории" := ⟨rfl, by decide⟩

/-- C5 as amended: `calculate_by_category` groups on
`t.get('category', 'Без категории')` — a missing `category` key goes to the
distinct `"Без категории"` bucket, an empty-string category to the bucket
keyed `""` — no transaction is dropped: the bucket counts sum to the input
length and every transaction's (defaulted) category key owns a bucket. -/
theorem category_grouping_amended (ts : List Transaction) :
    (((calculate_by_category ts).map fun p => p.2.count).sum = ts.length)
    ∧ ∀ t ∈ ts, ∃ p ∈ calculate_by_category ts,
        p.1 = t.category.getD "Без категории" := by
  constructor
  · have h := foldl_upsert_count ts []
    simp only [List.map_nil, List.sum_nil, Nat.zero_add] at h
    simpa [calculate_by_category, List.map_map, Function.comp] using h
  · intro t ht
    have h := foldl_upsert_keys_mem ts [] t ht
    have hkeys : (calculate_by_category ts).map Prod.fst
        = (ts.foldl (fun m t =>
            upsertCat m (t.category.getD "Без категории") t.amount) []).map
          Prod.fst := by
      simp [calculate_by_category, List.map_map, Function.comp]
    rw [← hkeys] at h
    obtain ⟨p, hp, hfst⟩ := List.mem_map.mp h
    exact ⟨p, hp, hfst⟩

/-- C9: `categorize_all_transactions` writes only the `category` field —
`date`, `amount` and `description` come through unchanged — and re-running it
on its own output reproduces that output exactly (idempotence).  The three
aggregation passes are plain functions of the collection in this embedding,
reflecting that the Python code only reads transactions there. -/
theorem categorize_frame_idempotent (ts : List Transaction) :
    ((categorize_all_transactions ts).map
        fun t => (t.date, t.amount, t.description))
      = (ts.map fun t => (t.date, t.amount, t.description))
    ∧ categorize_all_transactions (categorize_all_transactions ts)
      = categorize_all_transactions ts := by
  constructor
  · simp only [categorize_all_transactions, List.map_map]
    rfl
  · simp only [categorize_all_transactions, List.map_map]
    rfl

theorem analyzeLoop_ok_of_parses (ts : List Transaction) :
    ∀ acc, (∀ t ∈ ts, (parse_date t.date).isSome) →
      ∃ res, analyzeLoop ts acc = .ok res := by
  induction ts with
  | nil => intro acc _; exact ⟨acc, rfl⟩
  | cons t ts ih =>
    intro acc h
    have ht := h t (List.mem_cons_self _ _)
    cases hp : parse_date t.date with
    | none => rw [hp] at ht; simp at ht
    | some p =>
      simp only [analyzeLoop, hp]
      exact ih _ fun t' ht' => h t' (List.mem_cons_of_mem _ ht')

theorem analyzeLoop_error_at_first (pre : List Transaction) :
    ∀ acc t1 post, (∀ t ∈ pre, (parse_date t.date).isSome) →
      parse_date t1.date = none →
      analyzeLoop (pre ++ t1 :: post) acc = .error t1.date := by
  induction pre with
  | nil =>
    intro acc t1 post _ h1
    simp only [List.nil_append, analyzeLoop, h1]
  | cons t pre ih =>
    intro acc t1 post h h1
    have ht := h t (List.mem_cons_self _ _)
    cases hp : parse_date t.date with
    | none => rw [hp] at ht; simp at ht
    | some p =>
      simp only [List.cons_append, analyzeLoop, hp]
      exact ih _ t1 post (fun t' ht' => h t' (List.mem_cons_of_mem _ ht')) h1

theorem analyzeLoop_error_of_bad (ts : List Transaction) :
    ∀ acc, (∃ t ∈ ts, parse_date t.date = none) →
      ∃ e, analyzeLoop ts acc = .error e := by
  induction ts with
  | nil => intro acc h; simp at h
  | cons t ts ih =>
    intro acc h
    cases hp : parse_date t.date with
    | none => exact ⟨t.date, by simp only [analyzeLoop, hp]⟩
    | some p =>
      simp only [analyzeLoop, hp]
      apply ih
      obtain ⟨t', ht', h'⟩ := h
      rcases List.mem_cons.mp ht' with rfl | hmem
      · rw [hp] at h'; cases h'
      · exact ⟨t', hmem, h'⟩

/-- C6: `analyze_by_time` succeeds on every input whose dates all parse in
the `%Y-%m-%d` format; a transaction with an unparsable date makes it fail,
and the failure carries the date of the FIRST offending transaction —
nothing is skipped or defaulted. -/
theorem time_stats_date_error (ts : List Transaction) :
    ((∀ t ∈ ts, (parse_date t.date).isSome) →
        ∃ stats, analyze_by_time ts = .ok stats)
    ∧ ((∃ t ∈ ts, parse_date t.date = none) →
        ∃ e, analyze_by_time ts = .error e)
    ∧ (∀ pre t1 post, ts = pre ++ t1 :: post →
        (∀ t ∈ pre, (parse_date t.date).isSome) →
        parse_date t1.date = none →
        analyze_by_time ts = .error t1.date) := by
  refine ⟨?_, ?_, ?_⟩
  · intro h
    obtain ⟨res, hr⟩ := analyzeLoop_ok_of_parses ts [] h
    refine ⟨res.map fun p =>
      (p.1, ⟨p.2.income, p.2.expenses, p.2.categories,
             most_common3 p.2.categories⟩), ?_⟩
    rw [analyze_by_time, hr]
    rfl
  · intro h
    obtain ⟨e, he⟩ := analyzeLoop_error_of_bad ts [] h
    exact ⟨e, by simp [analyze_by_time, he, Except.map]⟩
  · intro pre t1 post hsplit hpre h1
    subst hsplit
    rw [analyze_by_time, analyzeLoop_error_at_first pre [] t1 post hpre h1]
    rfl

/-- Witness for C6: a parsable one-element input succeeds, and prefixing a
malformed date `"2024/01/05"` yields exactly that date as the error. -/
theorem time_stats_date_error_witness :
    (∃ stats, analyze_by_time
        [⟨"2024-01-05", 0, none, none⟩] = .ok stats)
    ∧ analyze_by_time
        [⟨"2024/01/05", 0, none, none⟩, ⟨"2024-01-05", 0, none, none⟩]
      = .error "2024/01/05" :=
  ⟨(time_stats_date_error [⟨"2024-01-05", 0, none, none⟩]).1 (by decide),
   (time_stats_date_error _).2.2 [] ⟨"2024/01/05", 0, none, none⟩
     [⟨"2024-01-05", 0, none, none⟩] rfl (by decide) (by decide)⟩

theorem monthUpsert_self_key (stats : List (String × MonthData)) (key : String)
    (t : Transaction) : key ∈ (monthUpsert stats key t).map Prod.fst := by
  induction stats with
  | nil => simp [monthUpsert]
  | cons p rest ih =>
    obtain ⟨k, d⟩ := p
    by_cases hk : k = key
    · simp [monthUpsert, hk]
    · simp only [monthUpsert, if_neg hk, List.map_cons, List.mem_cons]
      exact Or.inr ih

theorem monthUpsert_keys_mono (stats : List (String × MonthData))
    (key k : String) (t : Transaction) (h : k ∈ stats.map Prod.fst) :
    k ∈ (monthUpsert stats key t).map Prod.fst := by
  induction stats with
  | nil => simp at h
  | cons p rest ih =>
    obtain ⟨k0, d⟩ := p
    by_cases hk : k0 = key
    · simp only [monthUpsert, if_pos hk, List.map_cons, List.mem_cons] at h ⊢
      exact h
    · simp only [monthUpsert, if_neg hk, List.map_cons, List.mem_cons] at h ⊢
      rcases h with h | h
      · exact Or.inl h
      · exact Or.inr (ih h)

theorem monthUpsert_mem (stats : List (String × MonthData)) (key : String)
    (t : Transaction) (k : String) (d : MonthData)
    (h : (k, d) ∈ monthUpsert stats key t) :
    (k, d) ∈ stats
    ∨ (k = key ∧ ∃ d0, d = applyTx d0 t
        ∧ ((k, d0) ∈ stats ∨ d0 = ⟨0, 0, []⟩)) := by
  induction stats with
  | nil =>
    simp only [monthUpsert, List.mem_singleton, Prod.ext_iff] at h
    exact Or.inr ⟨h.1, ⟨0, 0, []⟩, h.2, Or.inr rfl⟩
  | cons p rest ih =>
    obtain ⟨k0, d0'⟩ := p
    by_cases hk : k0 = key
    · simp only [monthUpsert, if_pos hk, List.mem_cons] at h
      rcases h with h | h
      · rw [Prod.mk.injEq] at h
        obtain ⟨h1, h2⟩ := h
        refine Or.inr ⟨h1.trans hk, d0', h2, Or.inl ?_⟩
        rw [h1]
        exact List.mem_cons_self _ _
      · exact Or.inl (List.mem_cons_of_mem _ h)
    · simp only [monthUpsert, if_neg hk, List.mem_cons] at h
      rcases h with h | h
      · exact Or.inl (by rw [h]; exact List.mem_cons_self _ _)
      · rcases ih h with hmem | ⟨h1, d0, h2, h3⟩
        · exact Or.inl (List.mem_cons_of_mem _ hmem)
        · refine Or.inr ⟨h1, d0, h2, ?_⟩
          rcases h3 with h3 | h3
          · exact Or.inl (List.mem_cons_of_mem _ h3)
          · exact Or.inr h3

theorem analyzeLoop_keys_mono (ts : List Transaction) :
    ∀ acc res k, analyzeLoop ts acc = .ok res →
      k ∈ acc.map Prod.fst → k ∈ res.map Prod.fst := by
  induction ts with
  | nil =>
    intro acc res k h hk
    simp only [analyzeLoop] at h
    injection h with h
    subst h
    exact hk
  | cons t ts ih =>
    intro acc res k h hk
    cases hp : parse_date t.date with
    | none =>
      simp only [analyzeLoop, hp] at h
      exact Except.noConfusion h
    | some p =>
      simp only [analyzeLoop, hp] at h
      exact ih _ res k h (monthUpsert_keys_mono acc _ k t hk)

theorem analyzeLoop_tx_key (ts : List Transaction) :
    ∀ acc res, analyzeLoop ts acc = .ok res → ∀ t ∈ ts,
      ∃ k, monthKeyOf t = some k ∧ k ∈ res.map Prod.fst := by
  induction ts with
  | nil => intro acc res _ t ht; simp at ht
  | cons t0 ts ih =>
    intro acc res h t ht
    cases hp : parse_date t0.date with
    | none =>
      simp only [analyzeLoop, hp] at h
      exact Except.noConfusion h
    | some p =>
      simp only [analyzeLoop, hp] at h
      rcases List.mem_cons.mp ht with rfl | hmem
      · refine ⟨monthKeyString p.1 p.2, by simp [monthKeyOf, hp], ?_⟩
        exact analyzeLoop_keys_mono ts _ res _ h (monthUpsert_self_key acc _ t)
      · exact ih _ res h t hmem

theorem analyzeLoop_zero_month (k : String) (ts : List Transaction) :
    ∀ acc res, analyzeLoop ts acc = .ok res →
      (∀ t ∈ ts, monthKeyOf t = some k → t.amount = 0) →
      (∀ d, (k, d) ∈ acc → d = ⟨0, 0, []⟩) →
      ∀ d, (k, d) ∈ res → d = ⟨0, 0, []⟩ := by
  induction ts with
  | nil =>
    intro acc res h _ hacc
    simp only [analyzeLoop] at h
    injection h with h
    subst h
    exact hacc
  | cons t0 ts ih =>
    intro acc res h hz hacc
    cases hp : parse_date t0.date with
    | none =>
      simp only [analyzeLoop, hp] at h
      exact Except.noConfusion h
    | some p =>
      simp only [analyzeLoop, hp] at h
      refine ih _ res h (fun t ht => hz t (List.mem_cons_of_mem _ ht)) ?_
      intro d hd
      rcases monthUpsert_mem acc (monthKeyString p.1 p.2) t0 k d hd with
        hmem | ⟨hk, d0, hd0, hmem0⟩
      · exact hacc d hmem
      · have hkey : monthKeyOf t0 = some k := by
          simp [monthKeyOf, hp, hk]
        have h0 : t0.amount = 0 := hz t0 (List.mem_cons_self _ _) hkey
        have happ : ∀ dd : MonthData, applyTx dd t0 = dd := by
          intro dd
          simp [applyTx, h0]
        rcases hmem0 with hm | hm
        · rw [hd0, happ]
          exact hacc d0 hm
        · rw [hd0, happ, hm]

/-- C10: every transaction whose date parses contributes its month key to the
`analyze_by_time` result, zero-amount transactions included; a month all of
whose transactions have amount `0` still appears, with income `0`, expenses
`0` and an empty `top_categories`, because a zero amount updates neither sum
nor the per-month category list (`applyTx` is the identity on it). -/
theorem time_stats_zero_month (ts : List Transaction)
    (stats : List (String × MonthStats))
    (h : analyze_by_time ts = .ok stats) :
    (∀ t ∈ ts, ∃ k, monthKeyOf t = some k ∧ k ∈ stats.map Prod.fst)
    ∧ (∀ k d, (k, d) ∈ stats →
        (∀ t ∈ ts, monthKeyOf t = some k → t.amount = 0) →
        d.income = 0 ∧ d.expenses = 0 ∧ d.top_categories = [])
    ∧ (∀ (dd : MonthData) (t : Transaction), t.amount = 0 →
        applyTx dd t = dd) := by
  obtain ⟨res, hres, hmap⟩ : ∃ res, analyzeLoop ts [] = .ok res ∧
      stats = res.map fun p =>
        (p.1, ⟨p.2.income, p.2.expenses, p.2.categories,
               most_common3 p.2.categories⟩) := by
    rw [analyze_by_time] at h
    cases hr : analyzeLoop ts [] with
    | error e =>
      rw [hr] at h
      exact Except.noConfusion h
    | ok r =>
      rw [hr] at h
      refine ⟨r, rfl, ?_⟩
      injection h with h
      exact h.symm
  subst hmap
  refine ⟨?_, ?_, ?_⟩
  · intro t ht
    obtain ⟨k, hk1, hk2⟩ := analyzeLoop_tx_key ts [] res hres t ht
    refine ⟨k, hk1, ?_⟩
    rw [List.map_map]
    exact hk2
  · intro k d hd hz
    obtain ⟨p, hp, hpe⟩ := List.mem_map.mp hd
    rw [Prod.mk.injEq] at hpe
    obtain ⟨hk, hdval⟩ := hpe
    have hpmem : (k, p.2) ∈ res := by
      rw [← hk]
      exact hp
    have hzero : p.2 = ⟨0, 0, []⟩ :=
      analyzeLoop_zero_month k ts [] res hres hz (by simp) p.2 hpmem
    rw [← hdval, hzero]
    exact ⟨rfl, rfl, rfl⟩
  · intro dd t h0
    simp [applyTx, h0]

/-- Witness for C10 on a month holding only a zero-amount transaction. -/
theorem time_stats_zero_month_witness :
    (∀ t ∈ ([⟨"2024-03-07", 0, none, none⟩] : List Transaction),
      ∃ k, monthKeyOf t = some k
        ∧ k ∈ ([("2024-03", (⟨0, 0, [], []⟩ : MonthStats))].map Prod.fst))
    ∧ (∀ k d, (k, d) ∈ [("2024-03", (⟨0, 0, [], []⟩ : MonthStats))] →
        (∀ t ∈ ([⟨"2024-03-07", 0, none, none⟩] : List Transaction),
          monthKeyOf t = some k → t.amount = 0) →
        d.income = 0 ∧ d.expenses = 0 ∧ d.top_categories = [])
    ∧ (∀ (dd : MonthData) (t : Transaction), t.amount = 0 →
        applyTx dd t = dd) :=
  time_stats_zero_month [⟨"2024-03-07", 0, none, none⟩]
    [("2024-03", ⟨0, 0, [], []⟩)] rfl

theorem firstOccAux_mem (l : List String) :
    ∀ seen x, x ∈ firstOccAux seen l →
      x ∈ l ∧ seen.contains x = false := by
  induction l with
  | nil => intro seen x hx; simp [firstOccAux] at hx
  | cons y ys ih =>
    intro seen x hx
    by_cases hs : seen.contains y = true
    · rw [firstOccAux, if_pos hs] at hx
      obtain ⟨h1, h2⟩ := ih seen x hx
      exact ⟨List.mem_cons_of_mem _ h1, h2⟩
    · rw [firstOccAux, if_neg hs] at hx
      rcases List.mem_cons.mp hx with rfl | hx'
      · exact ⟨List.mem_cons_self _ _, by simpa using hs⟩
      · obtain ⟨h1, h2⟩ := ih (y :: seen) x hx'
        refine ⟨List.mem_cons_of_mem _ h1, ?_⟩
        simp only [List.contains_cons, Bool.or_eq_false_iff] at h2
        exact h2.2

theorem firstOccAux_nodup (l : List String) :
    ∀ seen, (firstOccAux seen l).Nodup := by
  induction l with
  | nil => intro seen; simp [firstOccAux]
  | cons y ys ih =>
    intro seen
    by_cases hs : seen.contains y = true
    · rw [firstOccAux, if_pos hs]
      exact ih seen
    · rw [firstOccAux, if_neg hs]
      refine List.nodup_cons.mpr ⟨?_, ih (y :: seen)⟩
      intro hy
      have hc := (firstOccAux_mem ys (y :: seen) y hy).2
      simp [List.contains_cons] at hc

theorem firstOccKeys_nodup (l : List String) : (firstOccKeys l).Nodup :=
  firstOccAux_nodup l []

theorem firstOccKeys_subset (l : List String) :
    ∀ x ∈ firstOccKeys l, x ∈ l :=
  fun x hx => (firstOccAux_mem l [] x hx).1

theorem insertDesc_mem (x : String × Nat) (l : List (String × Nat))
    (z : String × Nat) : z ∈ insertDesc x l ↔ z = x ∨ z ∈ l := by
  induction l with
  | nil => simp [insertDesc]
  | cons y ys ih =>
    by_cases h : x.2 ≤ y.2
    · simp only [insertDesc, if_pos h, List.mem_cons, ih]
      tauto
    · simp only [insertDesc, if_neg h, List.mem_cons]

theorem sortDesc_mem_aux (l : List (String × Nat)) :
    ∀ acc z, (z ∈ l.foldl (fun acc x => insertDesc x acc) acc)
      ↔ z ∈ acc ∨ z ∈ l := by
  induction l with
  | nil => intro acc z; simp
  | cons x xs ih =>
    intro acc z
    simp only [List.foldl_cons, ih, insertDesc_mem, List.mem_cons]
    tauto

theorem sortDesc_mem (l : List (String × Nat)) (z : String × Nat) :
    z ∈ sortDesc l ↔ z ∈ l := by
  rw [sortDesc, sortDesc_mem_aux]
  simp

theorem insertDesc_pairwise (f : String × Nat → Nat) (x : String × Nat) :
    ∀ l : List (String × Nat),
      l.Pairwise (fun a b => b.2 ≤ a.2 ∧ (b.2 = a.2 → f a < f b)) →
      (∀ y ∈ l, f y < f x) →
      (insertDesc x l).Pairwise
        (fun a b => b.2 ≤ a.2 ∧ (b.2 = a.2 → f a < f b)) := by
  intro l
  induction l with
  | nil => intro _ _; simp [insertDesc]
  | cons y ys ih =>
    intro hp hf
    obtain ⟨hy, hys⟩ := List.pairwise_cons.mp hp
    by_cases h : x.2 ≤ y.2
    · rw [insertDesc, if_pos h]
      refine List.Pairwise.cons ?_
        (ih hys fun z hz => hf z (List.mem_cons_of_mem _ hz))
      intro z hz
      rcases (insertDesc_mem x ys z).mp hz with rfl | hzys
      · exact ⟨h, fun _ => hf y (List.mem_cons_self _ _)⟩
      · exact hy z hzys
    · rw [insertDesc, if_neg h]
      push_neg at h
      refine List.Pairwise.cons ?_ hp
      intro z hz
      rcases List.mem_cons.mp hz with rfl | hzys
      · exact ⟨le_of_lt h, fun he => absurd he (ne_of_lt h)⟩
      · have hzy := (hy z hzys).1
        exact ⟨le_of_lt (lt_of_le_of_lt hzy h),
          fun he => absurd he (ne_of_lt (lt_of_le_of_lt hzy h))⟩

theorem sortDesc_pairwise_aux (f : String × Nat → Nat)
    (l : List (String × Nat)) :
    ∀ acc, acc.Pairwise (fun a b => b.2 ≤ a.2 ∧ (b.2 = a.2 → f a < f b)) →
      (∀ y ∈ acc, ∀ x ∈ l, f y < f x) →
      l.Pairwise (fun a b => f a < f b) →
      (l.foldl (fun acc x => insertDesc x acc) acc).Pairwise
        (fun a b => b.2 ≤ a.2 ∧ (b.2 = a.2 → f a < f b)) := by
  induction l with
  | nil => intro acc h _ _; exact h
  | cons x xs ih =>
    intro acc hacc hcross hl
    obtain ⟨hx, hxs⟩ := List.pairwise_cons.mp hl
    simp only [List.foldl_cons]
    refine ih _ ?_ ?_ hxs
    · exact insertDesc_pairwise f x acc hacc
        fun y hy => hcross y hy x (List.mem_cons_self _ _)
    · intro y hy z hz
      rcases (insertDesc_mem x acc y).mp hy with rfl | hyacc
      · exact hx z hz
      · exact hcross y hyacc z (List.mem_cons_of_mem _ hz)

theorem nodup_pairwise_idx (ks : List String) (h : ks.Nodup) :
    ks.Pairwise fun a b => ks.indexOf a < ks.indexOf b := by
  induction ks with
  | nil => simp
  | cons x xs ih =>
    obtain ⟨hx, hnd⟩ := List.nodup_cons.mp h
    refine List.Pairwise.cons ?_ ?_
    · intro b hb
      have hbx : x ≠ b := fun he => hx (he ▸ hb)
      rw [List.indexOf_cons_self, List.indexOf_cons_ne _ hbx]
      exact Nat.succ_pos _
    · refine (ih hnd).imp_of_mem ?_
      intro a b ha hb hab
      have hax : x ≠ a := fun he => hx (he ▸ ha)
      have hbx : x ≠ b := fun he => hx (he ▸ hb)
      rw [List.indexOf_cons_ne _ hax, List.indexOf_cons_ne _ hbx]
      omega

theorem most_common3_spec (cats : List String) :
    (most_common3 cats).length ≤ 3
    ∧ (most_common3 cats).Pairwise (fun a b => b.2 ≤ a.2
        ∧ (b.2 = a.2 → (firstOccKeys cats).indexOf a.1
            < (firstOccKeys cats).indexOf b.1))
    ∧ (∀ q ∈ most_common3 cats,
        q.2 = countOcc cats q.1 ∧ q.1 ∈ cats)
    ∧ (cats = [] → most_common3 cats = []) := by
  have hitems : ((firstOccKeys cats).map
      fun c => (c, countOcc cats c)).Pairwise
        (fun a b => (firstOccKeys cats).indexOf a.1
          < (firstOccKeys cats).indexOf b.1) := by
    rw [List.pairwise_map]
    exact nodup_pairwise_idx _ (firstOccKeys_nodup cats)
  have hsorted := sortDesc_pairwise_aux
    (fun q => (firstOccKeys cats).indexOf q.1)
    ((firstOccKeys cats).map fun c => (c, countOcc cats c))
    [] (by simp) (by simp) hitems
  refine ⟨?_, ?_, ?_, ?_⟩
  · rw [most_common3]
    simp
  · exact List.Pairwise.sublist (List.take_sublist _ _) hsorted
  · intro q hq
    have hq' : q ∈ sortDesc ((firstOccKeys cats).map
        fun c => (c, countOcc cats c)) := List.mem_of_mem_take hq
    have hq'' := (sortDesc_mem _ q).mp hq'
    obtain ⟨c, hc, rfl⟩ := List.mem_map.mp hq''
    exact ⟨rfl, firstOccKeys_subset cats c hc⟩
  · intro hc
    rw [hc]
    rfl

theorem analyze_by_time_ok_elim (ts : List Transaction)
    (stats : List (String × MonthStats))
    (h : analyze_by_time ts = .ok stats) :
    ∃ res, analyzeLoop ts [] = .ok res ∧
      stats = res.map fun p =>
        (p.1, ⟨p.2.income, p.2.expenses, p.2.categories,
               most_common3 p.2.categories⟩) := by
  rw [analyze_by_time] at h
  cases hr : analyzeLoop ts [] with
  | error e =>
    rw [hr] at h
    exact Except.noConfusion h
  | ok r =>
    rw [hr] at h
    refine ⟨r, rfl, ?_⟩
    injection h with h
    exact h.symm

/-- C7: in every month bucket of a successful `analyze_by_time`,
`top_categories` is `Counter(categories).most_common(3)`: at most three
entries, sorted by descending occurrence count with ties in first-encountered
order (strictly increasing position in the first-occurrence key list), each
entry carrying the exact occurrence count of that month's expense-category
list (duplicates retained), and empty — with no error — when the month has no
expense transaction (empty category list). -/
theorem top_categories_ranking (ts : List Transaction)
    (stats : List (String × MonthStats))
    (h : analyze_by_time ts = .ok stats) :
    ∀ p ∈ stats,
      p.2.top_categories = most_common3 p.2.categories
      ∧ p.2.top_categories.length ≤ 3
      ∧ p.2.top_categories.Pairwise (fun a b => b.2 ≤ a.2
          ∧ (b.2 = a.2 → (firstOccKeys p.2.categories).indexOf a.1
              < (firstOccKeys p.2.categories).indexOf b.1))
      ∧ (∀ q ∈ p.2.top_categories,
          q.2 = countOcc p.2.categories q.1 ∧ q.1 ∈ p.2.categories)
      ∧ (p.2.categories = [] → p.2.top_categories = []) := by
  obtain ⟨res, hres, hmap⟩ := analyze_by_time_ok_elim ts stats h
  subst hmap
  intro p hp
  obtain ⟨q, hq, rfl⟩ := List.mem_map.mp hp
  obtain ⟨h1, h2, h3, h4⟩ := most_common3_spec q.2.categories
  exact ⟨rfl, h1, h2, h3, h4⟩

/-- Witness for C7 on a month holding one zero-amount transaction (no
expense transactions, so its `top_categories` is empty). -/
theorem top_categories_ranking_witness :
    ("2024-03", (⟨0, 0, [], []⟩ : MonthStats)).2.top_categories
        = most_common3 ("2024-03", (⟨0, 0, [], []⟩ : MonthStats)).2.categories
    ∧ ("2024-03", (⟨0, 0, [], []⟩ : MonthStats)).2.top_categories.length ≤ 3
    ∧ ("2024-03",
        (⟨0, 0, [], []⟩ : MonthStats)).2.top_categories.Pairwise
        (fun a b => b.2 ≤ a.2
          ∧ (b.2 = a.2 →
              (firstOccKeys ("2024-03",
                (⟨0, 0, [], []⟩ : MonthStats)).2.categories).indexOf a.1
              < (firstOccKeys ("2024-03",
                (⟨0, 0, [], []⟩ : MonthStats)).2.categories).indexOf b.1))
    ∧ (∀ q ∈ ("2024-03", (⟨0, 0, [], []⟩ : MonthStats)).2.top_categories,
        q.2 = countOcc ("2024-03",
            (⟨0, 0, [], []⟩ : MonthStats)).2.categories q.1
          ∧ q.1 ∈ ("2024-03", (⟨0, 0, [], []⟩ : MonthStats)).2.categories)
    ∧ (("2024-03", (⟨0, 0, [], []⟩ : MonthStats)).2.categories = [] →
        ("2024-03", (⟨0, 0, [], []⟩ : MonthStats)).2.top_categories = []) :=
  top_categories_ranking [⟨"2024-03-07", 0, none, none⟩]
    [("2024-03", ⟨0, 0, [], []⟩)] rfl
    ("2024-03", ⟨0, 0, [], []⟩) (List.mem_singleton.mpr rfl)

/-- The three-transaction input of the spec's end-to-end example. -/
def exampleTransactions : List Transaction :=
  [⟨"2024-01-05", 1000, some "зарплата", none⟩,
   ⟨"2024-01-10", -50, some "кафе обед", none⟩,
   ⟨"2024-02-01", -200, some "такси поездка", none⟩]

/-- The example input after categorization. -/
def exampleCtxs : List Transaction :=
  [⟨"2024-01-05", 1000, some "зарплата", some "зарплата и доходы"⟩,
   ⟨"2024-01-10", -50, some "кафе обед", some "обед и рестораны"⟩,
   ⟨"2024-02-01", -200, some "такси поездка", some "транспорт"⟩]

/-- C8: the spec's end-to-end example, computed with the configured rule
table: the three transactions are categorized as "зарплата и доходы",
"обед и рестораны", "транспорт"; basic stats are income 1000, expense -250,
balance 750, count 3; category percents are 20 for "обед и рестораны" and 80
for "транспорт"; the time stats hold exactly the months "2024-01" and
"2024-02", with January's top category [("обед и рестораны", 1)]. -/
theorem end_to_end_example :
    (categorize_all_transactions exampleTransactions).map Transaction.category
      = [some "зарплата и доходы", some "обед и рестораны", some "транспорт"]
    ∧ calculate_basic_stats (categorize_all_transactions exampleTransactions)
      = ⟨1000, -250, 750, 3⟩
    ∧ ((calculate_by_category
          (categorize_all_transactions exampleTransactions)).lookup
        "обед и рестораны").map CatStats.percent = some 20
    ∧ ((calculate_by_category
          (categorize_all_transactions exampleTransactions)).lookup
        "транспорт").map CatStats.percent = some 80
    ∧ ∃ stats,
        analyze_by_time (categorize_all_transactions exampleTransactions)
          = .ok stats
        ∧ stats.map Prod.fst = ["2024-01", "2024-02"]
        ∧ (stats.lookup "2024-01").map MonthStats.top_categories
          = some [("обед и рестораны", 1)] := by
  have hcat : categorize_all_transactions exampleTransactions = exampleCtxs :=
    by decide
  have hTE : ((exampleCtxs.filter fun t => t.amount < 0).map
      Transaction.amount).sum = -250 := by
    norm_num [exampleCtxs, List.filter_cons]
  have htot : exampleCtxs.foldl
      (fun m t => upsertCat m (t.category.getD "Без категории") t.amount) []
      = [("зарплата и доходы", ⟨1000, 1⟩), ("обед и рестораны", ⟨-50, 1⟩),
         ("транспорт", ⟨-200, 1⟩)] := by decide
  have hcc : calculate_by_category exampleCtxs
      = [("зарплата и доходы", ⟨1000, 1, -400⟩),
         ("обед и рестораны", ⟨-50, 1, 20⟩),
         ("транспорт", ⟨-200, 1, 80⟩)] := by
    simp only [calculate_by_category, htot, hTE]
    norm_num [CatStats.mk.injEq, Prod.mk.injEq]
  have hloop : analyzeLoop exampleCtxs []
      = .ok [("2024-01", ⟨1000, -50, ["обед и рестораны"]⟩),
             ("2024-02", ⟨0, -200, ["транспорт"]⟩)] := by
    have hp1 : parse_date "2024-01-05" = some (2024, 1) := rfl
    have hp2 : parse_date "2024-01-10" = some (2024, 1) := rfl
    have hp3 : parse_date "2024-02-01" = some (2024, 2) := rfl
    have hk1 : monthKeyString 2024 1 = "2024-01" := rfl
    have hk2 : monthKeyString 2024 2 = "2024-02" := rfl
    have hne : ¬ ("2024-01" : String) = "2024-02" := by decide
    norm_num [exampleCtxs, analyzeLoop, monthUpsert, applyTx, hp1, hp2, hp3,
      hk1, hk2, hne, MonthData.mk.injEq, Prod.mk.injEq]
  have htime : analyze_by_time exampleCtxs
      = .ok [("2024-01",
              ⟨1000, -50, ["обед и рестораны"], [("обед и рестораны", 1)]⟩),
             ("2024-02", ⟨0, -200, ["транспорт"], [("транспорт", 1)]⟩)] := by
    rw [analyze_by_time, hloop]
    rfl
  refine ⟨?_, ?_, ?_, ?_, ?_⟩
  · rw [hcat]
    rfl
  · rw [hcat]
    norm_num [calculate_basic_stats, exampleCtxs, List.filter_cons,
      BasicStats.mk.injEq]
  · rw [hcat, hcc]
    rfl
  · rw [hcat, hcc]
    rfl
  · refine ⟨[("2024-01",
        ⟨1000, -50, ["обед и рестораны"], [("обед и рестораны", 1)]⟩),
       ("2024-02", ⟨0, -200, ["транспорт"], [("транспорт", 1)]⟩)],
      by rw [hcat]; exact htime, rfl, rfl⟩
